import Mathlib

/-! # OwningMutex

A verification development for `OwningMutex.hpp`, a class template that bundles a
value of type `T` with the `std::mutex` protecting it, and for the callers in
`main.cpp`.

Embedding conventions.

* Objects live in a store indexed by addresses.  A C++ reference (`OwningMutex &`,
  `T &`) is the address of the object it refers to, and a member function takes the
  address of `this` together with the store.
* A call that cannot complete because `std::mutex::lock` has to wait returns `none`;
  a call that completes returns `some` of the new store (and of its result).
* A callback `fn` invocable with `T &` is a function from the value it finds to the
  value it leaves behind together with the way it exits (a returned result or a
  thrown exception).
* `std::mutex` carries two history counters, `acquired` and `released`, that count
  the completed `lock()` and `unlock()` calls.  No operation reads them; they exist
  so that "released exactly once" can be stated.
-/

/-! ## `std::mutex` -/

/-- The two states of a `std::mutex`. -/
inductive LockState where
  | Unlocked
  | Locked
  deriving DecidableEq, Repr

/-- A `std::mutex`: its state, and the number of `lock()` and `unlock()` calls that
have completed on it so far (history counters). -/
structure StdMutex where
  state : LockState
  acquired : Nat
  released : Nat
  deriving DecidableEq, Repr

namespace StdMutex

/-- The default constructor of `std::mutex`: unlocked. -/
def init : StdMutex :=
  { state := LockState.Unlocked, acquired := 0, released := 0 }

/-- The call `std::mutex::lock()`.  On an unlocked mutex it completes and the mutex
is locked; on a locked mutex the caller waits, and the call does not complete
(`none`). -/
def lock (m : StdMutex) : Option StdMutex :=
  match m.state with
  | LockState.Unlocked =>
    some { m with state := LockState.Locked, acquired := m.acquired + 1 }
  | LockState.Locked => none

/-- The call `std::mutex::unlock()`, made by the holder of the mutex. -/
def unlock (m : StdMutex) : StdMutex :=
  { m with state := LockState.Unlocked, released := m.released + 1 }

end StdMutex

/-! ## The class `OwningMutex<T>` -/

/-- The data members of `OwningMutex<T>`: `std::mutex mutex; T value;`. -/
structure OwningMutex (T : Type) where
  mutex : StdMutex
  value : T
  deriving DecidableEq, Repr

/-- Addresses of `OwningMutex` objects. -/
abbrev Addr := Nat

/-- The store: the `OwningMutex<T>` object at each address. -/
def Store (T : Type) := Addr → OwningMutex T

/-- The store with the object at address `a` replaced by `o`. -/
def Store.set {T : Type} (σ : Store T) (a : Addr) (o : OwningMutex T) : Store T :=
  fun b => if b = a then o else σ b

/-- How a callback leaves: by returning a result or by throwing. -/
inductive Exit (ε R : Type) where
  | returns (r : R)
  | throws (e : ε)
  deriving DecidableEq, Repr

/-- A reference `T &` to the `value` member of the object at `owner`. -/
structure ValueRef where
  owner : Addr
  deriving DecidableEq, Repr

namespace ValueRef

/-- Reading through the reference. -/
def read {T : Type} (r : ValueRef) (σ : Store T) : T :=
  (σ r.owner).value

/-- Assigning through the reference. -/
def write {T : Type} (r : ValueRef) (v : T) (σ : Store T) : Store T :=
  σ.set r.owner { σ r.owner with value := v }

end ValueRef

/-- The `std::lock_guard<std::mutex>` local of `with_lock`, bound to the `mutex`
member of the object at `self`. -/
structure lock_guard where
  self : Addr
  deriving DecidableEq, Repr

namespace lock_guard

/-- The statement `std::lock_guard<std::mutex> lock(mutex);` -- the constructor
calls `mutex.lock()`. -/
def ctor {T : Type} (self : Addr) (σ : Store T) : Option (Store T × lock_guard) :=
  match (σ self).mutex.lock with
  | none => none
  | some mu => some (σ.set self { σ self with mutex := mu }, { self := self })

/-- The destructor of the `std::lock_guard`: it calls `mutex.unlock()`.  It runs when
the scope of `with_lock` is left, by `return` or by an exception passing through. -/
def dtor {T : Type} (l : lock_guard) (σ : Store T) : Store T :=
  σ.set l.self { σ l.self with mutex := (σ l.self).mutex.unlock }

end lock_guard

namespace OwningMutex

/-- The constructor `OwningMutex(Args &&...val) : value(std::forward<Args>(val)...)`:
`val` is the value of type `T` built from the forwarded arguments, and `mutex` is
default-constructed. -/
def construct {T : Type} (val : T) : OwningMutex T :=
  { mutex := StdMutex.init, value := val }

/-- The member function `with_lock(Fn fn)`:
```
std::lock_guard<std::mutex> lock(mutex);
return fn(value);
```
`fn` receives a reference to `value`: it is given the value it finds and yields the
value it leaves and its exit.  The `lock_guard` is destroyed on both exits, and the
exit of `fn` is the exit of `with_lock`. -/
def with_lock {T ε R : Type} (self : Addr) (fn : T → T × Exit ε R) (σ : Store T) :
    Option (Store T × Exit ε R) :=
  match lock_guard.ctor self σ with
  | none => none
  | some (σ₁, lock) =>
    let value : ValueRef := { owner := self }
    let out := fn (value.read σ₁)
    some (lock.dtor (value.write out.1 σ₁), out.2)

/-- The nested class `MutexGuard`: its only member is `OwningMutex &mutex_ref`. -/
structure MutexGuard where
  mutex_ref : Addr
  deriving DecidableEq, Repr

namespace MutexGuard

/-- The constructor
`explicit MutexGuard(OwningMutex &mutex_r) : mutex_ref(mutex_r) { mutex_ref.mutex.lock(); }`. -/
def ctor {T : Type} (mutex_r : Addr) (σ : Store T) : Option (Store T × MutexGuard) :=
  let g : MutexGuard := { mutex_ref := mutex_r }
  match (σ g.mutex_ref).mutex.lock with
  | none => none
  | some mu => some (σ.set g.mutex_ref { σ g.mutex_ref with mutex := mu }, g)

/-- The member `T &get() const noexcept { return mutex_ref.value; }`. -/
def get (g : MutexGuard) : ValueRef :=
  { owner := g.mutex_ref }

/-- The destructor `~MutexGuard() { mutex_ref.mutex.unlock(); }`. -/
def dtor {T : Type} (g : MutexGuard) (σ : Store T) : Store T :=
  σ.set g.mutex_ref { σ g.mutex_ref with mutex := (σ g.mutex_ref).mutex.unlock }

end MutexGuard

/-- The member function `lock()`: `return MutexGuard(*this);`. -/
def lock {T : Type} (self : Addr) (σ : Store T) : Option (Store T × MutexGuard) :=
  MutexGuard.ctor self σ

end OwningMutex

open OwningMutex

/-! ## The callers in `main.cpp` (one thread at a time) -/

/-- The callback `[](int &val) { val += 1; }`, for an arbitrary update `f` in place of
the increment: it leaves `f val` and returns nothing. -/
def update_fn {T : Type} (f : T → T) : T → T × Exit Empty Unit :=
  fun val => (f val, Exit.returns ())

/-- The callback `[](int &val) { return val + 5; }`. -/
def plus_five : Int → Int × Exit Empty Int :=
  fun val => (val, Exit.returns (val + 5))

/-- The thread body of `test_with_lock`:
`mutex.with_lock([](int &val) { val += 1; });`. -/
def with_lock_body {T : Type} (mutex : Addr) (f : T → T) (σ : Store T) : Option (Store T) :=
  match with_lock mutex (update_fn f) σ with
  | none => none
  | some (σ₁, _) => some σ₁

/-- The thread body of `test_guard`:
```
auto guard = mutex.lock();
guard.get() += 1;
```
followed by the destruction of `guard` at the end of the block. -/
def guard_body {T : Type} (mutex : Addr) (f : T → T) (σ : Store T) : Option (Store T) :=
  match OwningMutex.lock mutex σ with
  | none => none
  | some (σ₁, guard) =>
    let σ₂ := guard.get.write (f (guard.get.read σ₁)) σ₁
    some (guard.dtor σ₂)

/-- The thread body of `test_guard_manual_create`:
```
OwningMutex<int>::MutexGuard guard(mutex);
guard.get() += 1;
```
followed by the destruction of `guard` at the end of the block. -/
def guard_manual_create_body {T : Type} (mutex : Addr) (f : T → T) (σ : Store T) :
    Option (Store T) :=
  match MutexGuard.ctor mutex σ with
  | none => none
  | some (σ₁, guard) =>
    let σ₂ := guard.get.write (f (guard.get.read σ₁)) σ₁
    some (guard.dtor σ₂)

/-- The thread body of `test_lock`: `mutex.lock().get() += 1;` -- the guard is a
temporary, destroyed at the end of the full expression. -/
def lock_body {T : Type} (mutex : Addr) (f : T → T) (σ : Store T) : Option (Store T) :=
  match OwningMutex.lock mutex σ with
  | none => none
  | some (σ₁, tmp) =>
    let σ₂ := tmp.get.write (f (tmp.get.read σ₁)) σ₁
    some (tmp.dtor σ₂)

/-- The expression `mutex.lock().get()` read as a value, as in the assertions of the
tests: the temporary guard is destroyed once the value has been read. -/
def lock_get {T : Type} (mutex : Addr) (σ : Store T) : Option (Store T × T) :=
  match OwningMutex.lock mutex σ with
  | none => none
  | some (σ₁, tmp) => some (tmp.dtor σ₁, tmp.get.read σ₁)

/-- The function `test_with_lock_return`:
```
OwningMutex<int> mutex(5);
assert(mutex.with_lock([](int& val){return val + 5;}) == 10);
```
with the local `mutex` placed at address `a`; the result is the asserted condition. -/
def test_with_lock_return (a : Addr) (σ : Store Int) : Option Bool :=
  let σ₀ := σ.set a (construct 5)
  match with_lock a plus_five σ₀ with
  | none => none
  | some (_, Exit.returns r) => some (decide (r = 10))
  | some (_, Exit.throws e) => e.elim

/-- Running an operation `n` times in a row, stopping at the first call that does not
complete. -/
def repeat_op {T : Type} (op : Store T → Option (Store T)) : Nat → Store T → Option (Store T)
  | 0, σ => some σ
  | n + 1, σ =>
    match op σ with
    | none => none
    | some σ₁ => repeat_op op n σ₁

/-- A store in which every object is a freshly constructed `OwningMutex` holding
`val`. -/
def Store.fresh {T : Type} (val : T) : Store T :=
  fun _ => construct val

/-- The callback that adds one to the value and then throws. -/
def bump_then_throw : Int → Int × Exit Unit Unit :=
  fun val => (val + 1, Exit.throws ())

/-- The object left at `self` by a complete acquire / access / release cycle that
leaves the value `v`. -/
def after_cycle {T : Type} (o : OwningMutex T) (v : T) : OwningMutex T :=
  { mutex := { state := LockState.Unlocked, acquired := o.mutex.acquired + 1,
               released := o.mutex.released + 1 },
    value := v }

/-- The largest value of the 32-bit `int`. -/
def INT_MAX : Int := 2147483647

/-- The 32-bit `int` that an integer result is stored as: the result is reduced modulo
`2^32` into the range from `-2^31` to `2^31 - 1`. -/
def wrap_int (x : Int) : Int :=
  (x + 2147483648) % 4294967296 - 2147483648

/-- The update `guard.get() += 1` (and `val += 1`) on an `int`. -/
def int_incr (val : Int) : Int :=
  wrap_int (val + 1)

/-! ## Holders of the lock

The state machine of the lock of each object, with the holders that are alive: the
steps are the entry and exit of `with_lock`, `lock()` / `MutexGuard` construction and
`MutexGuard` destruction, taken by any caller at any time. -/

/-- A holder of a lock: a live `MutexGuard`, or an in-flight `with_lock` invocation
(one whose `lock_guard` local is alive). -/
inductive Holder where
  | guard (g : MutexGuard)
  | in_flight (l : lock_guard)
  deriving DecidableEq, Repr

/-- The object whose lock the holder holds. -/
def Holder.owner : Holder → Addr
  | Holder.guard g => g.mutex_ref
  | Holder.in_flight l => l.self

/-- The store together with the holders that are alive. -/
structure World (T : Type) where
  store : Store T
  holders : List Holder

/-- What a caller may do next. -/
inductive Step (T : Type) where
  /-- Enter `with_lock` on the object at `self`: construct the `lock_guard`. -/
  | with_lock_entry (self : Addr)
  /-- Leave the `with_lock` invocation that is holder number `k`: destroy its
  `lock_guard`. -/
  | with_lock_exit (k : Nat)
  /-- Call `lock()` on the object at `self`. -/
  | lock (self : Addr)
  /-- Construct a `MutexGuard` from the object at `mutex_r`. -/
  | guard_ctor (mutex_r : Addr)
  /-- Destroy the `MutexGuard` that is holder number `k`. -/
  | guard_dtor (k : Nat)
  /-- Holder number `k` updates the value through its reference (the argument of the
  callback, or `get()` of the guard). -/
  | access (k : Nat) (f : T → T)

namespace World

/-- The world in which every object has just been constructed, the object at `a` from
`vals a`, and nothing holds a lock. -/
def init {T : Type} (vals : Addr → T) : World T :=
  { store := fun a => construct (vals a), holders := [] }

/-- One step.  The result is `none` when the step cannot be taken: an acquisition that
has to wait, or a step of a holder that does not exist or is of the other kind. -/
def step {T : Type} (w : World T) : Step T → Option (World T)
  | Step.with_lock_entry self =>
    match lock_guard.ctor self w.store with
    | none => none
    | some (σ, l) => some { store := σ, holders := w.holders ++ [Holder.in_flight l] }
  | Step.with_lock_exit k =>
    match w.holders[k]? with
    | some (Holder.in_flight l) =>
      some { store := l.dtor w.store, holders := w.holders.eraseIdx k }
    | _ => none
  | Step.lock self =>
    match OwningMutex.lock self w.store with
    | none => none
    | some (σ, g) => some { store := σ, holders := w.holders ++ [Holder.guard g] }
  | Step.guard_ctor mutex_r =>
    match MutexGuard.ctor mutex_r w.store with
    | none => none
    | some (σ, g) => some { store := σ, holders := w.holders ++ [Holder.guard g] }
  | Step.guard_dtor k =>
    match w.holders[k]? with
    | some (Holder.guard g) =>
      some { store := g.dtor w.store, holders := w.holders.eraseIdx k }
    | _ => none
  | Step.access k f =>
    match w.holders[k]? with
    | some (Holder.guard g) =>
      some { store := g.get.write (f (g.get.read w.store)) w.store, holders := w.holders }
    | some (Holder.in_flight l) =>
      let value : ValueRef := { owner := l.self }
      some { store := value.write (f (value.read w.store)) w.store, holders := w.holders }
    | none => none

/-- A sequence of attempted steps: a step that cannot be taken leaves the world as it
is (a caller that has to wait is still waiting). -/
def run {T : Type} (w : World T) : List (Step T) → World T
  | [] => w
  | s :: rest => run ((w.step s).getD w) rest

/-- The number of holders of the lock of the object at `a`. -/
def holders_of {T : Type} (w : World T) (a : Addr) : Nat :=
  w.holders.countP (fun h => decide (h.owner = a))

end World

/-- The invariant of the lock of the object at `a`: at most one holder, the lock is
locked exactly when there is one, and every completed `lock()` but the holder's has
been matched by an `unlock()`. -/
def World.lock_inv {T : Type} (w : World T) (a : Addr) : Prop :=
  w.holders_of a ≤ 1 ∧
  ((w.store a).mutex.state = LockState.Locked ↔ w.holders_of a = 1) ∧
  (w.store a).mutex.acquired = (w.store a).mutex.released + w.holders_of a

/-! ## Concurrent threads

`run_across_threads` starts `SET_VALUE` threads that all run the same body on the same
`OwningMutex` and joins them.  A thread advances in atomic steps; an execution is an
interleaving of the steps of the threads, given by a schedule that names the thread
taking each step.  The update of the value is a read followed by a write, so that
updates can be lost unless the lock keeps the threads apart. -/

/-- The constant `SET_VALUE`. -/
def SET_VALUE : Nat := 10000

/-- Where a thread running `mutex.with_lock([](int &val) { val += 1; })` stands:
* `start`: `with_lock` has not constructed its `lock_guard` yet;
* `entered lock`: the `lock_guard` is constructed, the callback has not read `val`;
* `loaded lock tmp`: the callback has read `tmp` from `val`;
* `stored lock`: the callback has written `val`, the `lock_guard` is still alive;
* `done`: the `lock_guard` is destroyed and the thread has finished. -/
inductive Pc (T : Type) where
  | start
  | entered (lock : lock_guard)
  | loaded (lock : lock_guard) (tmp : T)
  | stored (lock : lock_guard)
  | done
  deriving DecidableEq, Repr

namespace Pc

/-- The thread is inside `with_lock` with its `lock_guard` alive. -/
def holding {T : Type} : Pc T → Bool
  | entered _ => true
  | loaded _ _ => true
  | stored _ => true
  | _ => false

/-- The thread has written its update. -/
def finished {T : Type} : Pc T → Bool
  | stored _ => true
  | done => true
  | _ => false

/-- The thread has finished. -/
def is_done {T : Type} : Pc T → Bool
  | done => true
  | _ => false

/-- The `lock_guard` of the thread, while it is alive. -/
def guard? {T : Type} : Pc T → Option lock_guard
  | entered l => some l
  | loaded l _ => some l
  | stored l => some l
  | _ => none

/-- The number of steps the thread still has to take. -/
def remaining {T : Type} : Pc T → Nat
  | start => 4
  | entered _ => 3
  | loaded _ _ => 2
  | stored _ => 1
  | done => 0

end Pc

/-- The shared store and the position of every thread. -/
structure Threads (T : Type) where
  store : Store T
  pcs : List (Pc T)

/-- One step of thread `i`, running `mutex.with_lock(fn)` where `fn` updates the value
by `f`: construct the `lock_guard` (the thread stays where it is while it has to
wait), read `val`, write `f` of what was read, destroy the `lock_guard`.  A finished
thread, or an `i` that names no thread, does nothing. -/
def thread_step {T : Type} (mutex : Addr) (f : T → T) (s : Threads T) (i : Nat) :
    Threads T :=
  let value : ValueRef := { owner := mutex }
  match s.pcs[i]? with
  | some Pc.start =>
    match lock_guard.ctor mutex s.store with
    | none => s
    | some (σ, lock) => { store := σ, pcs := s.pcs.set i (Pc.entered lock) }
  | some (Pc.entered lock) =>
    { store := s.store, pcs := s.pcs.set i (Pc.loaded lock (value.read s.store)) }
  | some (Pc.loaded lock tmp) =>
    { store := value.write (f tmp) s.store, pcs := s.pcs.set i (Pc.stored lock) }
  | some (Pc.stored lock) =>
    { store := lock.dtor s.store, pcs := s.pcs.set i Pc.done }
  | some Pc.done => s
  | none => s

/-- The threads as `run_across_threads` creates them: `n` threads at their start. -/
def Threads.spawn {T : Type} (n : Nat) (σ : Store T) : Threads T :=
  { store := σ, pcs := List.replicate n Pc.start }

/-- The steps of a schedule, in order. -/
def Threads.exec {T : Type} (mutex : Addr) (f : T → T) (s : Threads T) (sched : List Nat) :
    Threads T :=
  sched.foldl (thread_step mutex f) s

/-- All threads have finished, so every `thread.join()` returns. -/
def Threads.joined {T : Type} (s : Threads T) : Bool :=
  s.pcs.all Pc.is_done

/-- The function `run_across_threads(fn)` for `n` threads and the thread body of
`test_with_lock`, under the schedule `sched`: the store once all threads are joined,
or `none` when the schedule ends with a thread not finished. -/
def run_across_threads {T : Type} (n : Nat) (mutex : Addr) (f : T → T) (sched : List Nat)
    (σ : Store T) : Option (Store T) :=
  let s := (Threads.spawn n σ).exec mutex f sched
  if s.joined then some s.store else none

/-- The function `test_with_lock` for `n` threads, with the local `mutex` placed at
address `a`:
```
OwningMutex<int> mutex(0);
run_across_threads([&mutex] { mutex.with_lock([](int &val) { val += 1; }); });
assert(mutex.lock().get() == SET_VALUE);
```
The result is the asserted condition. -/
def test_with_lock (n : Nat) (a : Addr) (sched : List Nat) (σ : Store Int) : Option Bool :=
  let σ₀ := σ.set a (construct 0)
  match run_across_threads n a (fun val => val + 1) sched σ₀ with
  | none => none
  | some σ₁ =>
    match lock_get a σ₁ with
    | none => none
    | some (_, v) => some (decide (v = (n : Int)))

/-- The invariant of an execution of `n` threads on the object at `mutex` that held
`v₀` at the start. -/
def Threads.inv {T : Type} (mutex : Addr) (f : T → T) (v₀ : T) (n : Nat) (s : Threads T) :
    Prop :=
  s.pcs.length = n ∧
  (∀ (i j : Nat) (p q : Pc T), s.pcs[i]? = some p → s.pcs[j]? = some q →
    p.holding = true → q.holding = true → i = j) ∧
  ((s.store mutex).mutex.state = LockState.Locked ↔
    ∃ (i : Nat) (p : Pc T), s.pcs[i]? = some p ∧ p.holding = true) ∧
  (s.store mutex).value = f^[s.pcs.countP Pc.finished] v₀ ∧
  (∀ (i : Nat) (l : lock_guard) (tmp : T), s.pcs[i]? = some (Pc.loaded l tmp) → tmp = (s.store mutex).value) ∧
  (∀ (i : Nat) (p : Pc T) (l : lock_guard), s.pcs[i]? = some p → p.guard? = some l → l.self = mutex)

/-- The number of steps the threads still have to take. -/
def Threads.remaining {T : Type} (s : Threads T) : Nat :=
  (s.pcs.map Pc.remaining).sum

/-! ## Basic facts about the store and the mutex -/

@[simp] theorem Store.set_same {T : Type} (σ : Store T) (a : Addr) (o : OwningMutex T) :
    (σ.set a o) a = o := by
  simp [Store.set]

@[simp] theorem Store.set_other {T : Type} (σ : Store T) (a b : Addr) (o : OwningMutex T)
    (h : b ≠ a) : (σ.set a o) b = σ b := by
  simp [Store.set, h]

@[simp] theorem Store.set_set {T : Type} (σ : Store T) (a : Addr) (o₁ o₂ : OwningMutex T) :
    (σ.set a o₁).set a o₂ = σ.set a o₂ := by
  funext b
  by_cases h : b = a <;> simp [Store.set, h]

theorem StdMutex.lock_of_unlocked (m : StdMutex) (h : m.state = LockState.Unlocked) :
    m.lock = some { state := LockState.Locked, acquired := m.acquired + 1,
                    released := m.released } := by
  simp [StdMutex.lock, h]

theorem StdMutex.lock_of_locked (m : StdMutex) (h : m.state = LockState.Locked) :
    m.lock = none := by
  simp [StdMutex.lock, h]

theorem LockState.eq_locked_of_ne {s : LockState} (h : s ≠ LockState.Unlocked) :
    s = LockState.Locked := by
  cases s
  · exact absurd rfl h
  · rfl

theorem OwningMutex.MutexGuard.ctor_of_unlocked {T : Type} (a : Addr) (σ : Store T)
    (h : (σ a).mutex.state = LockState.Unlocked) :
    MutexGuard.ctor a σ =
      some (σ.set a { mutex := { state := LockState.Locked,
                                 acquired := (σ a).mutex.acquired + 1,
                                 released := (σ a).mutex.released },
                      value := (σ a).value },
            { mutex_ref := a }) := by
  simp [MutexGuard.ctor, StdMutex.lock_of_unlocked _ h]

theorem OwningMutex.MutexGuard.ctor_of_locked {T : Type} (a : Addr) (σ : Store T)
    (h : (σ a).mutex.state = LockState.Locked) :
    MutexGuard.ctor a σ = none := by
  simp [MutexGuard.ctor, StdMutex.lock_of_locked _ h]

theorem lock_guard.lg_ctor_of_unlocked {T : Type} (a : Addr) (σ : Store T)
    (h : (σ a).mutex.state = LockState.Unlocked) :
    lock_guard.ctor a σ =
      some (σ.set a { mutex := { state := LockState.Locked,
                                 acquired := (σ a).mutex.acquired + 1,
                                 released := (σ a).mutex.released },
                      value := (σ a).value },
            { self := a }) := by
  simp [lock_guard.ctor, StdMutex.lock_of_unlocked _ h]

theorem lock_guard.lg_ctor_of_locked {T : Type} (a : Addr) (σ : Store T)
    (h : (σ a).mutex.state = LockState.Locked) :
    lock_guard.ctor a σ = none := by
  simp [lock_guard.ctor, StdMutex.lock_of_locked _ h]

theorem OwningMutex.with_lock_of_unlocked {T ε R : Type} (a : Addr) (fn : T → T × Exit ε R)
    (σ : Store T) (h : (σ a).mutex.state = LockState.Unlocked) :
    with_lock a fn σ =
      some (σ.set a (after_cycle (σ a) (fn (σ a).value).1), (fn (σ a).value).2) := by
  simp [with_lock, lock_guard.lg_ctor_of_unlocked a σ h, lock_guard.dtor, ValueRef.read,
    ValueRef.write, StdMutex.unlock, after_cycle]

theorem OwningMutex.with_lock_of_locked {T ε R : Type} (a : Addr) (fn : T → T × Exit ε R)
    (σ : Store T) (h : (σ a).mutex.state = LockState.Locked) :
    with_lock a fn σ = none := by
  simp [with_lock, lock_guard.lg_ctor_of_locked a σ h]

theorem guard_body_of_unlocked {T : Type} (a : Addr) (f : T → T) (σ : Store T)
    (h : (σ a).mutex.state = LockState.Unlocked) :
    guard_body a f σ = some (σ.set a (after_cycle (σ a) (f (σ a).value))) := by
  simp [guard_body, OwningMutex.lock, MutexGuard.ctor_of_unlocked a σ h, MutexGuard.dtor,
    MutexGuard.get, ValueRef.read, ValueRef.write, StdMutex.unlock, after_cycle]

theorem with_lock_body_of_unlocked {T : Type} (a : Addr) (f : T → T) (σ : Store T)
    (h : (σ a).mutex.state = LockState.Unlocked) :
    with_lock_body a f σ = some (σ.set a (after_cycle (σ a) (f (σ a).value))) := by
  simp [with_lock_body, with_lock_of_unlocked a _ σ h, update_fn]

theorem lock_get_of_unlocked {T : Type} (a : Addr) (σ : Store T)
    (h : (σ a).mutex.state = LockState.Unlocked) :
    lock_get a σ = some (σ.set a (after_cycle (σ a) (σ a).value), (σ a).value) := by
  simp [lock_get, OwningMutex.lock, MutexGuard.ctor_of_unlocked a σ h, MutexGuard.dtor,
    MutexGuard.get, ValueRef.read, StdMutex.unlock, after_cycle]

theorem iterate_succ_int (n : Nat) (v : Int) : (fun x : Int => x + 1)^[n] v = v + n := by
  induction n generalizing v with
  | zero => simp
  | succ k ih =>
    rw [Function.iterate_succ_apply, ih]
    push_cast
    ring

theorem repeat_cycles {T : Type} (a : Addr) (f : T → T) (n : Nat) (σ : Store T)
    (h : (σ a).mutex.state = LockState.Unlocked) :
    ∃ σ₁, repeat_op (guard_body a f) n σ = some σ₁ ∧
      repeat_op (with_lock_body a f) n σ = some σ₁ ∧
      (σ₁ a).value = f^[n] (σ a).value ∧
      (σ₁ a).mutex.state = LockState.Unlocked := by
  induction n generalizing σ with
  | zero => exact ⟨σ, rfl, rfl, rfl, h⟩
  | succ k ih =>
    have h₁ : ((σ.set a (after_cycle (σ a) (f (σ a).value))) a).mutex.state
        = LockState.Unlocked := by
      simp [after_cycle]
    obtain ⟨σ₁, hg, hw, hv, hs⟩ := ih _ h₁
    refine ⟨σ₁, ?_, ?_, ?_, hs⟩
    · simp only [repeat_op, guard_body_of_unlocked a f σ h]
      exact hg
    · simp only [repeat_op, with_lock_body_of_unlocked a f σ h]
      exact hw
    · rw [hv, Function.iterate_succ_apply]
      simp [after_cycle]

theorem lock_body_eq_guard_body {T : Type} (a : Addr) (f : T → T) (σ : Store T) :
    lock_body a f σ = guard_body a f σ :=
  rfl

theorem test_with_lock_return_holds (a : Addr) (σ : Store Int) :
    test_with_lock_return a σ = some true := by
  have hu : ((σ.set a (construct (5 : Int))) a).mutex.state = LockState.Unlocked := by
    simp [construct, StdMutex.init]
  simp only [test_with_lock_return, with_lock_of_unlocked a plus_five _ hu]
  simp [plus_five, construct]

/-! ## The scoped-callback path -/

/-- C1. Return-value passthrough: on an unlocked `OwningMutex`, `with_lock(fn)`
completes, its exit is exactly the exit of `fn` applied to the stored value, the
stored value afterwards is the one `fn` left, so a `fn` that does not mutate its
argument leaves the stored value as it was; the lock is unlocked again and no other
object is touched. -/
theorem with_lock_passes_result {T ε R : Type} (self : Addr) (fn : T → T × Exit ε R)
    (σ : Store T) (h : (σ self).mutex.state = LockState.Unlocked) :
    ∃ σ₁, with_lock self fn σ = some (σ₁, (fn (σ self).value).2) ∧
      (σ₁ self).value = (fn (σ self).value).1 ∧
      ((fn (σ self).value).1 = (σ self).value → (σ₁ self).value = (σ self).value) ∧
      (σ₁ self).mutex.state = LockState.Unlocked ∧
      ∀ b, b ≠ self → σ₁ b = σ b := by
  refine ⟨_, with_lock_of_unlocked self fn σ h, ?_, ?_, ?_, ?_⟩
  · simp [after_cycle]
  · intro hv
    simp [after_cycle, hv]
  · simp [after_cycle]
  · intro b hb
    simp [hb]

/-- C1, at the input of `test_with_lock_return`: the object holds 5, the callback
returns `val + 5`; the call returns 10 and the stored value stays 5. -/
theorem with_lock_passes_result_witness :
    ((Store.fresh (5 : Int)) 0).mutex.state = LockState.Unlocked ∧
    ∃ σ₁, with_lock 0 plus_five (Store.fresh (5 : Int)) = some (σ₁, Exit.returns 10) ∧
      (σ₁ 0).value = 5 := by
  refine ⟨rfl, ?_⟩
  obtain ⟨σ₁, hr, hv, _, _, _⟩ :=
    with_lock_passes_result 0 plus_five (Store.fresh (5 : Int)) rfl
  exact ⟨σ₁, hr, hv⟩

/-- C3. Release on callback failure: on an unlocked `OwningMutex`, when `fn` throws
`e`, `with_lock(fn)` completes by throwing the same `e`, the lock is unlocked
afterwards, and a following `with_lock`, `lock()` or `MutexGuard` construction on the
same object completes. -/
theorem with_lock_releases_on_throw {T ε R ε₂ R₂ : Type} (self : Addr)
    (fn : T → T × Exit ε R) (σ : Store T) (e : ε)
    (h : (σ self).mutex.state = LockState.Unlocked)
    (hthrow : (fn (σ self).value).2 = Exit.throws e) :
    ∃ σ₁, with_lock self fn σ = some (σ₁, Exit.throws e) ∧
      (σ₁ self).mutex.state = LockState.Unlocked ∧
      (σ₁ self).mutex.released = (σ self).mutex.released + 1 ∧
      (∀ fn₂ : T → T × Exit ε₂ R₂, (with_lock self fn₂ σ₁).isSome = true) ∧
      (OwningMutex.lock self σ₁).isSome = true ∧
      (MutexGuard.ctor self σ₁).isSome = true := by
  have hu : ((σ.set self (after_cycle (σ self) (fn (σ self).value).1)) self).mutex.state
      = LockState.Unlocked := by
    simp [after_cycle]
  refine ⟨_, ?_, hu, ?_, ?_, ?_, ?_⟩
  · rw [with_lock_of_unlocked self fn σ h, hthrow]
  · simp [after_cycle]
  · intro fn₂
    rw [with_lock_of_unlocked self fn₂ _ hu]
    rfl
  · rw [OwningMutex.lock, MutexGuard.ctor_of_unlocked self _ hu]
    rfl
  · rw [MutexGuard.ctor_of_unlocked self _ hu]
    rfl

/-- C3, at a concrete input: the object holds 7 and the callback throws. -/
theorem with_lock_releases_on_throw_witness :
    ((Store.fresh (7 : Int)) 0).mutex.state = LockState.Unlocked ∧
    (bump_then_throw ((Store.fresh (7 : Int)) 0).value).2 = Exit.throws () ∧
    ∃ σ₁, with_lock 0 bump_then_throw (Store.fresh (7 : Int)) = some (σ₁, Exit.throws ()) ∧
      (σ₁ 0).mutex.state = LockState.Unlocked ∧
      (with_lock 0 plus_five σ₁).isSome = true ∧
      (OwningMutex.lock 0 σ₁).isSome = true := by
  refine ⟨rfl, rfl, ?_⟩
  obtain ⟨σ₁, hr, hs, _, hw, hl, _⟩ :=
    with_lock_releases_on_throw 0 bump_then_throw (Store.fresh (7 : Int)) () rfl rfl
  exact ⟨σ₁, hr, hs, hw plus_five, hl⟩

/-- C10. `with_lock` does not roll the value back: on an unlocked `OwningMutex`
holding `v`, when `fn` leaves the value `w` and then throws `e`, `with_lock(fn)`
throws `e`, the lock is released, and the stored value is `w` -- so it is not `v`
whenever `fn` changed it. -/
theorem with_lock_keeps_mutation_on_throw {T ε R : Type} (self : Addr)
    (fn : T → T × Exit ε R) (σ : Store T) (w : T) (e : ε)
    (h : (σ self).mutex.state = LockState.Unlocked)
    (hfn : fn (σ self).value = (w, Exit.throws e)) :
    ∃ σ₁, with_lock self fn σ = some (σ₁, Exit.throws e) ∧
      (σ₁ self).value = w ∧
      (w ≠ (σ self).value → (σ₁ self).value ≠ (σ self).value) ∧
      (σ₁ self).mutex.state = LockState.Unlocked := by
  refine ⟨σ.set self (after_cycle (σ self) w), ?_, ?_, ?_, ?_⟩
  · rw [with_lock_of_unlocked self fn σ h, hfn]
  · simp [after_cycle]
  · intro hne
    simpa [after_cycle] using hne
  · simp [after_cycle]

/-- C10, at a concrete input: the object holds 7, the callback adds one and throws;
the stored value is 8 afterwards. -/
theorem with_lock_keeps_mutation_on_throw_witness :
    ((Store.fresh (7 : Int)) 0).mutex.state = LockState.Unlocked ∧
    bump_then_throw ((Store.fresh (7 : Int)) 0).value = (8, Exit.throws ()) ∧
    ∃ σ₁, with_lock 0 bump_then_throw (Store.fresh (7 : Int)) = some (σ₁, Exit.throws ()) ∧
      (σ₁ 0).value = 8 ∧ (σ₁ 0).value ≠ 7 := by
  refine ⟨rfl, rfl, ?_⟩
  obtain ⟨σ₁, hr, hv, hne, _⟩ :=
    with_lock_keeps_mutation_on_throw 0 bump_then_throw (Store.fresh (7 : Int)) 8 () rfl rfl
  exact ⟨σ₁, hr, hv, hne (by decide)⟩

/-! ## The guard-handle path -/

theorem iterate_int_incr (n : Nat) : int_incr^[n] 0 = wrap_int (n : Int) := by
  induction n with
  | zero => rfl
  | succ k ih =>
    rw [Function.iterate_succ_apply', ih]
    simp only [int_incr, wrap_int]
    push_cast
    omega

theorem wrap_int_of_le (n : Nat) (h : (n : Int) ≤ INT_MAX) : wrap_int (n : Int) = (n : Int) := by
  simp only [INT_MAX] at h
  simp only [wrap_int]
  omega

/-- C4, as stated, fails for the `int` of `test_guard`: 2147483648 guard increments in
a row of an object holding 0 complete and leave the value -2147483648, not
2147483648. -/
theorem guard_increments_overflow :
    (repeat_op (guard_body 0 int_incr) 2147483648 (Store.fresh (0 : Int))).map
        (fun σ₁ => (σ₁ 0).value) = some (-2147483648) ∧
    (repeat_op (guard_body 0 int_incr) 2147483648 (Store.fresh (0 : Int))).map
        (fun σ₁ => (σ₁ 0).value) ≠ some 2147483648 := by
  obtain ⟨σ₁, hg, _, hv, _⟩ :=
    repeat_cycles 0 int_incr 2147483648 (Store.fresh (0 : Int)) rfl
  have h0 : ((Store.fresh (0 : Int)) 0).value = 0 := rfl
  rw [h0, iterate_int_incr] at hv
  have hw : wrap_int ((2147483648 : Nat) : Int) = -2147483648 := by
    simp only [wrap_int]
    norm_num
  rw [hw] at hv
  rw [hg]
  simp only [Option.map_some', hv]
  constructor
  · trivial
  · intro h
    have := Option.some.inj h
    omega

/-- C4, amended. The guard-handle path and the scoped-callback path are equivalent:
on an unlocked `OwningMutex`, `lock()`, an update `f` through `guard.get()` and the
destruction of the guard leave the same store as `with_lock` with a callback that
applies `f`: the value is `f` of the old value and the lock is unlocked.  Hence `n`
guard updates in a row and `n` `with_lock` updates in a row leave the same store, with
`f` applied `n` times; for increments of an `int` starting at 0 the value is `n` for
every `n` up to `INT_MAX`. -/
theorem guard_path_eq_with_lock_path {T : Type} (a : Addr) (f : T → T) (σ : Store T)
    (h : (σ a).mutex.state = LockState.Unlocked) :
    (∃ σ₁, guard_body a f σ = some σ₁ ∧ with_lock_body a f σ = some σ₁ ∧
      (σ₁ a).value = f (σ a).value ∧ (σ₁ a).mutex.state = LockState.Unlocked) ∧
    (∀ n : Nat, ∃ σ₁, repeat_op (guard_body a f) n σ = some σ₁ ∧
      repeat_op (with_lock_body a f) n σ = some σ₁ ∧
      (σ₁ a).value = f^[n] (σ a).value ∧ (σ₁ a).mutex.state = LockState.Unlocked) ∧
    (∀ (n : Nat) (τ : Store Int), (τ a).mutex.state = LockState.Unlocked →
      (τ a).value = 0 → (n : Int) ≤ INT_MAX →
      ∃ τ₁, repeat_op (guard_body a int_incr) n τ = some τ₁ ∧
        repeat_op (with_lock_body a int_incr) n τ = some τ₁ ∧
        (τ₁ a).value = (n : Int) ∧ (τ₁ a).mutex.state = LockState.Unlocked) := by
  refine ⟨?_, fun n => repeat_cycles a f n σ h, ?_⟩
  · refine ⟨_, guard_body_of_unlocked a f σ h, with_lock_body_of_unlocked a f σ h, ?_, ?_⟩
    · simp [after_cycle]
    · simp [after_cycle]
  · intro n τ hτ h0 hn
    obtain ⟨τ₁, hg, hw, hv, hs⟩ := repeat_cycles a int_incr n τ hτ
    refine ⟨τ₁, hg, hw, ?_, hs⟩
    rw [hv, h0, iterate_int_incr, wrap_int_of_le n hn]

/-- C4, amended, at a concrete input: three guard increments and three `with_lock`
increments of an `int` object holding 0 leave the same store, with value 3. -/
theorem guard_path_eq_with_lock_path_witness :
    ((Store.fresh (0 : Int)) 0).mutex.state = LockState.Unlocked ∧
    ((3 : Nat) : Int) ≤ INT_MAX ∧
    ∃ σ₁, repeat_op (guard_body 0 int_incr) 3 (Store.fresh (0 : Int)) = some σ₁ ∧
      repeat_op (with_lock_body 0 int_incr) 3 (Store.fresh (0 : Int)) = some σ₁ ∧
      (σ₁ 0).value = 3 := by
  have hn : ((3 : Nat) : Int) ≤ INT_MAX := by decide
  refine ⟨rfl, hn, ?_⟩
  obtain ⟨τ₁, hg, hw, hv, _⟩ :=
    (guard_path_eq_with_lock_path 0 int_incr (Store.fresh (0 : Int)) rfl).2.2
      3 (Store.fresh (0 : Int)) rfl rfl hn
  exact ⟨τ₁, hg, hw, by simpa using hv⟩

/-- C5. Constructing a `MutexGuard` directly from an `OwningMutex` is the same as
calling `lock()`: in every state of the object both complete or both wait, and when
they complete they yield the same store and a guard bound to the same owner, whose
`get()` refers to the value of that owner, and destroying either guard yields the same
store.  The thread bodies of `test_guard_manual_create` and `test_guard` agree. -/
theorem guard_ctor_eq_lock {T : Type} (self : Addr) (σ : Store T) :
    MutexGuard.ctor self σ = OwningMutex.lock self σ ∧
    (∀ σ₁ g₁ σ₂ g₂, MutexGuard.ctor self σ = some (σ₁, g₁) →
      OwningMutex.lock self σ = some (σ₂, g₂) →
      σ₁ = σ₂ ∧ g₁ = g₂ ∧ g₁.mutex_ref = self ∧ g₂.mutex_ref = self ∧
      g₁.get = g₂.get ∧ g₁.get.read σ₁ = (σ self).value ∧
      g₂.get.read σ₂ = (σ self).value ∧ g₁.dtor σ₁ = g₂.dtor σ₂) ∧
    (∀ f : T → T, guard_manual_create_body self f σ = guard_body self f σ) := by
  refine ⟨rfl, ?_, fun f => rfl⟩
  intro σ₁ g₁ σ₂ g₂ h₁ h₂
  have h : (some (σ₁, g₁) : Option (Store T × MutexGuard)) = some (σ₂, g₂) := by
    rw [← h₁, ← h₂]
    rfl
  obtain ⟨rfl, rfl⟩ := Prod.mk.inj (Option.some.inj h)
  have hs : (σ self).mutex.state = LockState.Unlocked := by
    by_contra hne
    rw [MutexGuard.ctor_of_locked self σ (LockState.eq_locked_of_ne hne)] at h₁
    exact Option.noConfusion h₁
  rw [MutexGuard.ctor_of_unlocked self σ hs] at h₁
  obtain ⟨rfl, rfl⟩ := Prod.mk.inj (Option.some.inj h₁)
  simp [MutexGuard.get, ValueRef.read]

/-- C5, at a concrete input: on a fresh object holding 4 both entry points complete
with the same store and guard. -/
theorem guard_ctor_eq_lock_witness :
    ∃ σ₁ g, MutexGuard.ctor 0 (Store.fresh (4 : Int)) = some (σ₁, g) ∧
      OwningMutex.lock 0 (Store.fresh (4 : Int)) = some (σ₁, g) ∧
      g.mutex_ref = 0 ∧ g.get.read σ₁ = 4 := by
  have hc := MutexGuard.ctor_of_unlocked 0 (Store.fresh (4 : Int)) rfl
  have h := guard_ctor_eq_lock 0 (Store.fresh (4 : Int))
  obtain ⟨_, _, hr, _, _, hv, _, _⟩ := h.2.1 _ _ _ _ hc (h.1 ▸ hc)
  exact ⟨_, _, hc, h.1 ▸ hc, hr, hv⟩

/-- C7. Guard acquire/release leaves the state as it found it when the value is not
touched: on an unlocked `OwningMutex` holding `v`, `lock()` completes with the lock
locked and the value still `v`; destroying that guard calls `unlock()` once (one more
completed `unlock()`, matching the one more completed `lock()`) and leaves the lock
unlocked with the value still `v` and every other object as it was.  The same holds for
a guard that only lives as a temporary, as in `mutex.lock().get()`. -/
theorem guard_acquire_release {T : Type} (a : Addr) (σ : Store T)
    (h : (σ a).mutex.state = LockState.Unlocked) :
    ∃ σ₁ g, OwningMutex.lock a σ = some (σ₁, g) ∧
      (σ₁ a).mutex.state = LockState.Locked ∧ (σ₁ a).value = (σ a).value ∧
      (g.dtor σ₁ a).mutex.state = LockState.Unlocked ∧
      (g.dtor σ₁ a).value = (σ a).value ∧
      (g.dtor σ₁ a).mutex.released = (σ a).mutex.released + 1 ∧
      (g.dtor σ₁ a).mutex.acquired = (σ a).mutex.acquired + 1 ∧
      (∀ b, b ≠ a → g.dtor σ₁ b = σ b) ∧
      lock_get a σ = some (g.dtor σ₁, (σ a).value) := by
  refine ⟨_, _, MutexGuard.ctor_of_unlocked a σ h, ?_, ?_, ?_, ?_, ?_, ?_, ?_, ?_⟩
  · simp
  · simp
  · simp [MutexGuard.dtor, StdMutex.unlock]
  · simp [MutexGuard.dtor]
  · simp [MutexGuard.dtor, StdMutex.unlock]
  · simp [MutexGuard.dtor, StdMutex.unlock]
  · intro b hb
    simp [MutexGuard.dtor, hb]
  · simp [lock_get, OwningMutex.lock, MutexGuard.ctor_of_unlocked a σ h, MutexGuard.get,
      ValueRef.read]

/-- C7, at a concrete input: a fresh object holding 9. -/
theorem guard_acquire_release_witness :
    ((Store.fresh (9 : Int)) 0).mutex.state = LockState.Unlocked ∧
    ∃ σ₁ g, OwningMutex.lock 0 (Store.fresh (9 : Int)) = some (σ₁, g) ∧
      (σ₁ 0).mutex.state = LockState.Locked ∧
      (g.dtor σ₁ 0).mutex.state = LockState.Unlocked ∧
      (g.dtor σ₁ 0).value = 9 ∧
      (g.dtor σ₁ 0).mutex.released = 1 := by
  refine ⟨rfl, ?_⟩
  obtain ⟨σ₁, g, hl, hs, _, hu, hv, hr, _, _, _⟩ :=
    guard_acquire_release 0 (Store.fresh (9 : Int)) rfl
  exact ⟨σ₁, g, hl, hs, hu, hv, hr⟩

/-- C8. Construct/read round trip: an `OwningMutex` constructed from `v` starts
unlocked and holds `v`; on it `lock()` completes, `get()` of the guard reads `v`
(reading takes the store and yields no new store), and while the guard lives the lock
is locked and the value is `v`.  A value `w` assigned through `get()` is what
`lock().get()` reads after the guard is destroyed. -/
theorem construct_read_round_trip {T : Type} (a : Addr) (v w : T) (σ : Store T)
    (h : σ a = construct v) :
    (construct v).mutex.state = LockState.Unlocked ∧ (construct v).value = v ∧
    ∃ σ₁ g, OwningMutex.lock a σ = some (σ₁, g) ∧
      g.get.read σ₁ = v ∧
      (σ₁ a).mutex.state = LockState.Locked ∧ (σ₁ a).value = v ∧
      (∃ σ₂, lock_get a σ = some (σ₂, v) ∧ (σ₂ a).value = v ∧
        (σ₂ a).mutex.state = LockState.Unlocked) ∧
      (g.get.write w σ₁ a).mutex.state = LockState.Locked ∧
      ∃ σ₃, lock_get a (g.dtor (g.get.write w σ₁)) = some (σ₃, w) ∧
        (σ₃ a).value = w := by
  have hs : (σ a).mutex.state = LockState.Unlocked := by
    rw [h]
    rfl
  have hv : (σ a).value = v := by
    rw [h]
    rfl
  refine ⟨rfl, rfl, _, _, MutexGuard.ctor_of_unlocked a σ hs, ?_, ?_, ?_, ?_, ?_, ?_⟩
  · simp [MutexGuard.get, ValueRef.read, hv]
  · simp
  · simp [hv]
  · refine ⟨σ.set a (after_cycle (σ a) (σ a).value), ?_, ?_, ?_⟩
    · rw [lock_get_of_unlocked a σ hs, hv]
    · simp [after_cycle, hv]
    · simp [after_cycle]
  · simp [MutexGuard.get, ValueRef.write]
  · have hu : ((MutexGuard.dtor { mutex_ref := a }
        ((MutexGuard.get { mutex_ref := a }).write w
          (σ.set a { mutex := { state := LockState.Locked,
                                acquired := (σ a).mutex.acquired + 1,
                                released := (σ a).mutex.released },
                     value := (σ a).value }))) a).mutex.state = LockState.Unlocked := by
      simp [MutexGuard.dtor, MutexGuard.get, ValueRef.write, StdMutex.unlock]
    have hw : ((MutexGuard.dtor { mutex_ref := a }
        ((MutexGuard.get { mutex_ref := a }).write w
          (σ.set a { mutex := { state := LockState.Locked,
                                acquired := (σ a).mutex.acquired + 1,
                                released := (σ a).mutex.released },
                     value := (σ a).value }))) a).value = w := by
      simp [MutexGuard.dtor, MutexGuard.get, ValueRef.write]
    have hg := lock_get_of_unlocked a _ hu
    rw [hw] at hg
    exact ⟨_, hg, by simp [after_cycle]⟩

/-- C8, at a concrete input: an object constructed from 5, then assigned 6. -/
theorem construct_read_round_trip_witness :
    (Store.fresh (5 : Int)) 0 = construct 5 ∧
    ∃ σ₁ g, OwningMutex.lock 0 (Store.fresh (5 : Int)) = some (σ₁, g) ∧
      g.get.read σ₁ = 5 ∧
      ∃ σ₃, lock_get 0 (g.dtor (g.get.write 6 σ₁)) = some (σ₃, 6) := by
  refine ⟨rfl, ?_⟩
  obtain ⟨_, _, σ₁, g, hl, hr, _, _, _, _, σ₃, hw, _⟩ :=
    construct_read_round_trip 0 (5 : Int) 6 (Store.fresh (5 : Int)) rfl
  exact ⟨σ₁, g, hl, hr, σ₃, hw⟩

/-! ## The single-holder invariant -/

theorem countP_eraseIdx_add {α : Type} (p : α → Bool) (l : List α) (k : Nat) (x : α)
    (h : l[k]? = some x) :
    List.countP p (l.eraseIdx k) + (if p x = true then 1 else 0) = List.countP p l := by
  induction l generalizing k with
  | nil => simp at h
  | cons y ys ih =>
    cases k with
    | zero =>
      simp only [List.getElem?_cons_zero, Option.some.injEq] at h
      subst h
      simp [List.countP_cons]
    | succ j =>
      simp only [List.getElem?_cons_succ] at h
      have := ih j h
      simp only [List.eraseIdx_cons_succ, List.countP_cons]
      omega

theorem lock_guard.lg_ctor_some {T : Type} (self : Addr) (σ σ₁ : Store T) (l : lock_guard)
    (h : lock_guard.ctor self σ = some (σ₁, l)) :
    (σ self).mutex.state = LockState.Unlocked ∧ l.self = self ∧
    σ₁ = σ.set self { mutex := { state := LockState.Locked,
                                 acquired := (σ self).mutex.acquired + 1,
                                 released := (σ self).mutex.released },
                      value := (σ self).value } := by
  have hs : (σ self).mutex.state = LockState.Unlocked := by
    by_contra hne
    rw [lock_guard.lg_ctor_of_locked self σ (LockState.eq_locked_of_ne hne)] at h
    exact Option.noConfusion h
  rw [lock_guard.lg_ctor_of_unlocked self σ hs] at h
  obtain ⟨h₁, h₂⟩ := Prod.mk.inj (Option.some.inj h)
  exact ⟨hs, by rw [← h₂], h₁.symm⟩

theorem OwningMutex.MutexGuard.ctor_some {T : Type} (self : Addr) (σ σ₁ : Store T)
    (g : MutexGuard) (h : MutexGuard.ctor self σ = some (σ₁, g)) :
    (σ self).mutex.state = LockState.Unlocked ∧ g.mutex_ref = self ∧
    σ₁ = σ.set self { mutex := { state := LockState.Locked,
                                 acquired := (σ self).mutex.acquired + 1,
                                 released := (σ self).mutex.released },
                      value := (σ self).value } := by
  have hs : (σ self).mutex.state = LockState.Unlocked := by
    by_contra hne
    rw [MutexGuard.ctor_of_locked self σ (LockState.eq_locked_of_ne hne)] at h
    exact Option.noConfusion h
  rw [MutexGuard.ctor_of_unlocked self σ hs] at h
  obtain ⟨h₁, h₂⟩ := Prod.mk.inj (Option.some.inj h)
  exact ⟨hs, by rw [← h₂], h₁.symm⟩

theorem World.acquire_inv {T : Type} (w : World T) (self : Addr) (x : Holder)
    (hx : x.owner = self) (hs : (w.store self).mutex.state = LockState.Unlocked)
    (hinv : ∀ a, w.lock_inv a) (a : Addr) :
    World.lock_inv
      { store := w.store.set self
          { mutex := { state := LockState.Locked,
                       acquired := (w.store self).mutex.acquired + 1,
                       released := (w.store self).mutex.released },
            value := (w.store self).value },
        holders := w.holders ++ [x] } a := by
  obtain ⟨h₁, h₂, h₃⟩ := hinv a
  unfold World.lock_inv World.holders_of at *
  by_cases ha : a = self
  · subst ha
    have h0 : List.countP (fun h => decide (h.owner = a)) w.holders = 0 := by
      by_contra hne
      have h1 : List.countP (fun h => decide (h.owner = a)) w.holders = 1 := by omega
      rw [h₂.2 h1] at hs
      exact LockState.noConfusion hs
    simp [List.countP_append, List.countP_cons, hx, h0]
    omega
  · have hxa : ¬ x.owner = a := by
      rw [hx]
      exact fun h => ha h.symm
    simp [List.countP_append, List.countP_cons, hxa, ha]
    exact ⟨h₁, h₂, h₃⟩

theorem World.release_inv {T : Type} (w : World T) (k : Nat) (x : Holder)
    (hk : w.holders[k]? = some x) (hinv : ∀ a, w.lock_inv a) (a : Addr) :
    World.lock_inv
      { store := w.store.set x.owner
          { w.store x.owner with mutex := (w.store x.owner).mutex.unlock },
        holders := w.holders.eraseIdx k } a := by
  obtain ⟨h₁, h₂, h₃⟩ := hinv a
  have hc := countP_eraseIdx_add (fun h => decide (h.owner = a)) w.holders k x hk
  unfold World.lock_inv World.holders_of at *
  by_cases ha : a = x.owner
  · subst ha
    simp only [decide_True, if_true] at hc
    have h0 : List.countP (fun h => decide (h.owner = x.owner)) (w.holders.eraseIdx k) = 0 := by
      omega
    simp [h0, StdMutex.unlock]
    omega
  · have hxa : ¬ x.owner = a := fun h => ha h.symm
    simp only [hxa, decide_False, Bool.false_eq_true, if_false, Nat.add_zero] at hc
    simp [ha, hc]
    exact ⟨h₁, h₂, h₃⟩

theorem World.access_inv {T : Type} (w : World T) (b : Addr) (v : T)
    (hinv : ∀ a, w.lock_inv a) (a : Addr) :
    World.lock_inv
      { store := w.store.set b { w.store b with value := v }, holders := w.holders } a := by
  obtain ⟨h₁, h₂, h₃⟩ := hinv a
  unfold World.lock_inv World.holders_of at *
  by_cases ha : a = b
  · subst ha
    simp
    exact ⟨h₁, h₂, h₃⟩
  · simp [ha]
    exact ⟨h₁, h₂, h₃⟩

theorem World.step_inv {T : Type} (w w₁ : World T) (s : Step T) (h : w.step s = some w₁)
    (hinv : ∀ a, w.lock_inv a) : ∀ a, w₁.lock_inv a := by
  intro a
  cases s with
  | with_lock_entry self =>
    simp only [World.step] at h
    split at h
    · exact Option.noConfusion h
    · rename_i σ l hc
      obtain ⟨hs, hl, rfl⟩ := lock_guard.lg_ctor_some self _ _ _ hc
      rw [← Option.some.inj h]
      exact World.acquire_inv w self (Holder.in_flight l) hl hs hinv a
  | with_lock_exit k =>
    simp only [World.step] at h
    split at h
    · rename_i l hk
      rw [← Option.some.inj h]
      exact World.release_inv w k _ hk hinv a
    · exact Option.noConfusion h
  | lock self =>
    simp only [World.step] at h
    split at h
    · exact Option.noConfusion h
    · rename_i σ g hc
      obtain ⟨hs, hg, rfl⟩ := MutexGuard.ctor_some self _ _ _ hc
      rw [← Option.some.inj h]
      exact World.acquire_inv w self (Holder.guard g) hg hs hinv a
  | guard_ctor mutex_r =>
    simp only [World.step] at h
    split at h
    · exact Option.noConfusion h
    · rename_i σ g hc
      obtain ⟨hs, hg, rfl⟩ := MutexGuard.ctor_some mutex_r _ _ _ hc
      rw [← Option.some.inj h]
      exact World.acquire_inv w mutex_r (Holder.guard g) hg hs hinv a
  | guard_dtor k =>
    simp only [World.step] at h
    split at h
    · rename_i g hk
      rw [← Option.some.inj h]
      exact World.release_inv w k _ hk hinv a
    · exact Option.noConfusion h
  | access k f =>
    simp only [World.step] at h
    split at h
    · rw [← Option.some.inj h]
      exact World.access_inv w _ _ hinv a
    · rw [← Option.some.inj h]
      exact World.access_inv w _ _ hinv a
    · exact Option.noConfusion h

theorem World.run_inv {T : Type} (steps : List (Step T)) (w : World T)
    (hinv : ∀ a, w.lock_inv a) : ∀ a, (w.run steps).lock_inv a := by
  induction steps generalizing w with
  | nil => exact hinv
  | cons s rest ih =>
    simp only [World.run]
    apply ih
    cases hs : w.step s with
    | none => simpa using hinv
    | some w₁ => simpa using World.step_inv w w₁ s hs hinv

theorem World.init_inv {T : Type} (vals : Addr → T) (a : Addr) :
    (World.init vals).lock_inv a := by
  simp [World.lock_inv, World.holders_of, World.init, construct, StdMutex.init]

theorem World.with_lock_as_steps {T ε R : Type} (w : World T) (a : Addr)
    (fn : T → T × Exit ε R) (h : (w.store a).mutex.state = LockState.Unlocked) :
    (w.run [Step.with_lock_entry a,
            Step.access w.holders.length (fun v => (fn v).1),
            Step.with_lock_exit w.holders.length]).holders = w.holders ∧
    (with_lock a fn w.store).map Prod.fst =
      some (w.run [Step.with_lock_entry a,
                   Step.access w.holders.length (fun v => (fn v).1),
                   Step.with_lock_exit w.holders.length]).store := by
  have he : (w.holders ++ [Holder.in_flight { self := a }]).eraseIdx w.holders.length
      = w.holders := by
    rw [List.eraseIdx_append_of_length_le (Nat.le_refl _)]
    simp
  simp [World.run, World.step, lock_guard.lg_ctor_of_unlocked a w.store h, with_lock,
    lock_guard.dtor, ValueRef.read, ValueRef.write, he]

/-- C6. Single-holder invariant: in every world reached from freshly constructed
objects by attempted steps -- `with_lock` entry and exit, `lock()`, `MutexGuard`
construction and destruction, and accesses by holders -- every object has at most one
holder (a live `MutexGuard` or an in-flight `with_lock` invocation), its lock is
locked exactly when it has one, and unlocked exactly when it has none; the completed
`lock()` calls are the completed `unlock()` calls plus the holders. -/
theorem single_holder_invariant {T : Type} (vals : Addr → T) (steps : List (Step T))
    (a : Addr) :
    ((World.init vals).run steps).holders_of a ≤ 1 ∧
    ((((World.init vals).run steps).store a).mutex.state = LockState.Locked ↔
      ((World.init vals).run steps).holders_of a = 1) ∧
    ((((World.init vals).run steps).store a).mutex.state = LockState.Unlocked ↔
      ((World.init vals).run steps).holders_of a = 0) ∧
    (((World.init vals).run steps).store a).mutex.acquired =
      (((World.init vals).run steps).store a).mutex.released +
        ((World.init vals).run steps).holders_of a := by
  obtain ⟨h₁, h₂, h₃⟩ := World.run_inv steps (World.init vals) (World.init_inv vals) a
  refine ⟨h₁, h₂, ?_, h₃⟩
  constructor
  · intro hu
    by_contra hne
    have h1 : ((World.init vals).run steps).holders_of a = 1 := by omega
    rw [h₂.2 h1] at hu
    exact LockState.noConfusion hu
  · intro h0
    by_contra hne
    have := h₂.1 (LockState.eq_locked_of_ne hne)
    omega

/-- C6, at a concrete input: after `lock()`, an attempted `with_lock` entry and an
attempted `MutexGuard` construction on the same fresh object there is one holder. -/
theorem single_holder_invariant_witness :
    ((World.init (fun _ => (0 : Int))).run
        [Step.lock 0, Step.with_lock_entry 0, Step.guard_ctor 0]).holders_of 0 = 1 ∧
    (((World.init (fun _ => (0 : Int))).run
        [Step.lock 0, Step.with_lock_entry 0, Step.guard_ctor 0]).store 0).mutex.state
      = LockState.Locked := by
  have h := single_holder_invariant (fun _ => (0 : Int))
    [Step.lock 0, Step.with_lock_entry 0, Step.guard_ctor 0] 0
  have h1 : ((World.init (fun _ => (0 : Int))).run
      [Step.lock 0, Step.with_lock_entry 0, Step.guard_ctor 0]).holders_of 0 = 1 := by
    decide
  exact ⟨h1, h.2.1.2 h1⟩

/-- C9. No re-entrant acquisition: a lock is either unlocked or locked, and on an
object whose lock is locked none of `with_lock`, `lock()` and `MutexGuard`
construction completes: each waits (it yields neither a result nor an exception, and
the callback is not run), whoever the holders are, and the attempts leave the store --
lock state and value -- and the holders as they were. -/
theorem no_reentrant_acquisition {T ε R : Type} (a : Addr) (σ : Store T)
    (h : (σ a).mutex.state = LockState.Locked) :
    (∀ s : LockState, s = LockState.Unlocked ∨ s = LockState.Locked) ∧
    (∀ fn : T → T × Exit ε R, with_lock a fn σ = none) ∧
    OwningMutex.lock a σ = none ∧
    MutexGuard.ctor a σ = none ∧
    ∀ holders : List Holder,
      World.step { store := σ, holders := holders } (Step.with_lock_entry a) = none ∧
      World.step { store := σ, holders := holders } (Step.lock a) = none ∧
      World.step { store := σ, holders := holders } (Step.guard_ctor a) = none ∧
      (World.run { store := σ, holders := holders }
        [Step.with_lock_entry a, Step.lock a, Step.guard_ctor a]).store = σ ∧
      (World.run { store := σ, holders := holders }
        [Step.with_lock_entry a, Step.lock a, Step.guard_ctor a]).holders = holders := by
  refine ⟨?_, fun fn => with_lock_of_locked a fn σ h, MutexGuard.ctor_of_locked a σ h,
    MutexGuard.ctor_of_locked a σ h, ?_⟩
  · intro s
    cases s
    · exact Or.inl rfl
    · exact Or.inr rfl
  · intro holders
    simp [World.run, World.step, lock_guard.lg_ctor_of_locked a σ h, OwningMutex.lock,
      MutexGuard.ctor_of_locked a σ h]

/-- C9, at a concrete input: the object holds 3 and its lock is held by a guard; a
`with_lock` with the callback of `test_with_lock_return` and a second `lock()` wait. -/
theorem no_reentrant_acquisition_witness :
    (((World.init (fun _ => (3 : Int))).run [Step.lock 0]).store 0).mutex.state
      = LockState.Locked ∧
    with_lock 0 plus_five ((World.init (fun _ => (3 : Int))).run [Step.lock 0]).store = none ∧
    OwningMutex.lock 0 ((World.init (fun _ => (3 : Int))).run [Step.lock 0]).store = none := by
  have h := @no_reentrant_acquisition Int Empty Int 0
    ((World.init (fun _ => (3 : Int))).run [Step.lock 0]).store rfl
  exact ⟨rfl, h.2.1 plus_five, h.2.2.1⟩

/-! ## Mutual exclusion under contention -/

theorem getElem?_set_cases {α : Type} (l : List α) (i k : Nat) (q r : α)
    (h : (l.set i q)[k]? = some r) :
    (k = i ∧ r = q) ∨ (k ≠ i ∧ l[k]? = some r) := by
  rw [List.getElem?_set] at h
  by_cases hik : i = k
  · subst hik
    simp only [if_true] at h
    split at h
    · exact Or.inl ⟨rfl, (Option.some.inj h).symm⟩
    · exact Option.noConfusion h
  · simp only [hik, if_false] at h
    exact Or.inr ⟨fun e => hik e.symm, h⟩

theorem getElem?_set_at {α : Type} (l : List α) (i : Nat) (p q : α) (h : l[i]? = some p) :
    (l.set i q)[i]? = some q := by
  obtain ⟨hi, _⟩ := List.getElem?_eq_some.1 h
  rw [List.getElem?_set]
  simp [hi]

theorem countP_set_add {α : Type} (c : α → Bool) (l : List α) (i : Nat) (p q : α)
    (h : l[i]? = some p) :
    List.countP c (l.set i q) + (if c p = true then 1 else 0)
      = List.countP c l + (if c q = true then 1 else 0) := by
  induction l generalizing i with
  | nil => simp at h
  | cons y ys ih =>
    cases i with
    | zero =>
      simp only [List.getElem?_cons_zero, Option.some.injEq] at h
      subst h
      simp only [List.set_cons_zero, List.countP_cons]
      omega
    | succ j =>
      simp only [List.getElem?_cons_succ] at h
      have := ih j h
      simp only [List.set_cons_succ, List.countP_cons]
      omega

theorem sum_remaining_set {T : Type} (l : List (Pc T)) (i : Nat) (p q : Pc T)
    (h : l[i]? = some p) :
    ((l.set i q).map Pc.remaining).sum + p.remaining
      = (l.map Pc.remaining).sum + q.remaining := by
  induction l generalizing i with
  | nil => simp at h
  | cons y ys ih =>
    cases i with
    | zero =>
      simp only [List.getElem?_cons_zero, Option.some.injEq] at h
      subst h
      simp only [List.set_cons_zero, List.map_cons, List.sum_cons]
      omega
    | succ j =>
      simp only [List.getElem?_cons_succ] at h
      have := ih j h
      simp only [List.set_cons_succ, List.map_cons, List.sum_cons]
      omega

theorem exists_remaining_pos {T : Type} (l : List (Pc T))
    (h : 0 < (l.map Pc.remaining).sum) :
    ∃ (i : Nat) (p : Pc T), l[i]? = some p ∧ 0 < p.remaining := by
  induction l with
  | nil => simp at h
  | cons y ys ih =>
    by_cases hy : 0 < y.remaining
    · exact ⟨0, y, by simp, hy⟩
    · simp only [List.map_cons, List.sum_cons] at h
      obtain ⟨i, p, hp, hr⟩ := ih (by omega)
      exact ⟨i + 1, p, by simpa using hp, hr⟩

theorem all_done_of_remaining_zero {T : Type} (l : List (Pc T))
    (h : (l.map Pc.remaining).sum = 0) : l.all Pc.is_done = true := by
  induction l with
  | nil => rfl
  | cons y ys ih =>
    simp only [List.map_cons, List.sum_cons] at h
    have hy : y.remaining = 0 := by omega
    have hys : (ys.map Pc.remaining).sum = 0 := by omega
    simp only [List.all_cons, ih hys, Bool.and_true]
    cases y <;> simp [Pc.remaining] at hy
    rfl

/-- Updating the position of thread `i` and the store keeps the invariant, when no
other thread holds the lock. -/
theorem Threads.inv_update {T : Type} (mutex : Addr) (f : T → T) (v₀ : T) (n : Nat)
    (s : Threads T) (i : Nat) (p q : Pc T) (σ₁ : Store T)
    (hp : s.pcs[i]? = some p) (hlen : s.pcs.length = n)
    (hothers : ∀ (j : Nat) (r : Pc T), j ≠ i → s.pcs[j]? = some r → r.holding = false)
    (hst : (σ₁ mutex).mutex.state = LockState.Locked ↔ q.holding = true)
    (hval : (σ₁ mutex).value = f^[(s.pcs.set i q).countP Pc.finished] v₀)
    (hld : ∀ (l : lock_guard) (tmp : T), q = Pc.loaded l tmp → tmp = (σ₁ mutex).value)
    (hg : ∀ l : lock_guard, q.guard? = some l → l.self = mutex) :
    Threads.inv mutex f v₀ n { store := σ₁, pcs := s.pcs.set i q } := by
  have hold : ∀ (k : Nat) (r : Pc T), (s.pcs.set i q)[k]? = some r → r.holding = true →
      k = i ∧ r = q := by
    intro k r hk hr
    rcases getElem?_set_cases _ _ _ _ _ hk with h | ⟨hne, hk₁⟩
    · exact h
    · rw [hothers k r hne hk₁] at hr
      exact Bool.noConfusion hr
  refine ⟨by simpa using hlen, ?_, ?_, hval, ?_, ?_⟩
  · intro a b x y ha hb hx hy
    rw [(hold a x ha hx).1, (hold b y hb hy).1]
  · constructor
    · intro hl
      exact ⟨i, q, getElem?_set_at _ _ _ _ hp, hst.1 hl⟩
    · rintro ⟨k, r, hk, hr⟩
      obtain ⟨_, rfl⟩ := hold k r hk hr
      exact hst.2 hr
  · intro k l tmp hk
    obtain ⟨_, hq⟩ := hold k _ hk rfl
    exact hld l tmp hq.symm
  · intro k r l hk hl
    have hr : r.holding = true := by
      cases r <;> simp [Pc.guard?] at hl <;> rfl
    obtain ⟨_, rfl⟩ := hold k r hk hr
    exact hg l hl

theorem Threads.others_of_holding {T : Type} (mutex : Addr) (f : T → T) (v₀ : T)
    (n : Nat) (s : Threads T) (i : Nat) (p : Pc T)
    (hinv : Threads.inv mutex f v₀ n s) (hp : s.pcs[i]? = some p)
    (hh : p.holding = true) :
    ∀ (j : Nat) (r : Pc T), j ≠ i → s.pcs[j]? = some r → r.holding = false := by
  intro j r hne hr
  by_contra hc
  have hrh : r.holding = true := by
    cases hb : r.holding
    · exact absurd hb hc
    · rfl
  exact hne (hinv.2.1 j i r p hr hp hrh hh)

theorem Threads.others_of_unlocked {T : Type} (mutex : Addr) (f : T → T) (v₀ : T)
    (n : Nat) (s : Threads T) (hinv : Threads.inv mutex f v₀ n s)
    (hu : (s.store mutex).mutex.state = LockState.Unlocked) :
    ∀ (j : Nat) (r : Pc T), s.pcs[j]? = some r → r.holding = false := by
  intro j r hr
  by_contra hc
  have hrh : r.holding = true := by
    cases hb : r.holding
    · exact absurd hb hc
    · rfl
  have := hinv.2.2.1.2 ⟨j, r, hr, hrh⟩
  rw [hu] at this
  exact LockState.noConfusion this

theorem Threads.step_start {T : Type} (mutex : Addr) (f : T → T) (v₀ : T) (n : Nat)
    (s : Threads T) (i : Nat) (hinv : Threads.inv mutex f v₀ n s)
    (hp : s.pcs[i]? = some Pc.start)
    (hu : (s.store mutex).mutex.state = LockState.Unlocked) :
    Threads.inv mutex f v₀ n (thread_step mutex f s i) ∧
    (thread_step mutex f s i).remaining + 1 = s.remaining := by
  have hstep : thread_step mutex f s i =
      { store := s.store.set mutex
          { mutex := { state := LockState.Locked,
                       acquired := (s.store mutex).mutex.acquired + 1,
                       released := (s.store mutex).mutex.released },
            value := (s.store mutex).value },
        pcs := s.pcs.set i (Pc.entered { self := mutex }) } := by
    simp only [thread_step, hp, lock_guard.lg_ctor_of_unlocked mutex s.store hu]
  rw [hstep]
  have hc := countP_set_add Pc.finished s.pcs i Pc.start (Pc.entered { self := mutex }) hp
  have hr := sum_remaining_set s.pcs i Pc.start (Pc.entered { self := mutex }) hp
  simp only [Pc.finished, Pc.remaining] at hc hr
  constructor
  · apply Threads.inv_update mutex f v₀ n s i Pc.start _ _ hp hinv.1
    · intro j r _ hj
      exact Threads.others_of_unlocked mutex f v₀ n s hinv hu j r hj
    · simp [Pc.holding]
    · have : List.countP Pc.finished (s.pcs.set i (Pc.entered { self := mutex }))
          = List.countP Pc.finished s.pcs := by simpa using hc
      rw [this]
      simpa using hinv.2.2.2.1
    · intro l tmp hq
      exact Pc.noConfusion hq
    · intro l hl
      simp only [Pc.guard?, Option.some.injEq] at hl
      rw [← hl]
  · simp only [Threads.remaining]
    omega

theorem Threads.step_start_locked {T : Type} (mutex : Addr) (f : T → T)
    (s : Threads T) (i : Nat) (hp : s.pcs[i]? = some Pc.start)
    (hl : (s.store mutex).mutex.state = LockState.Locked) :
    thread_step mutex f s i = s := by
  simp only [thread_step, hp, lock_guard.lg_ctor_of_locked mutex s.store hl]

theorem Threads.step_entered {T : Type} (mutex : Addr) (f : T → T) (v₀ : T) (n : Nat)
    (s : Threads T) (i : Nat) (l : lock_guard) (hinv : Threads.inv mutex f v₀ n s)
    (hp : s.pcs[i]? = some (Pc.entered l)) :
    Threads.inv mutex f v₀ n (thread_step mutex f s i) ∧
    (thread_step mutex f s i).remaining + 1 = s.remaining := by
  have hstep : thread_step mutex f s i =
      { store := s.store,
        pcs := s.pcs.set i (Pc.loaded l (s.store mutex).value) } := by
    simp only [thread_step, hp, ValueRef.read]
  rw [hstep]
  have hc := countP_set_add Pc.finished s.pcs i (Pc.entered l)
    (Pc.loaded l (s.store mutex).value) hp
  have hr := sum_remaining_set s.pcs i (Pc.entered l) (Pc.loaded l (s.store mutex).value) hp
  simp only [Pc.finished, Pc.remaining] at hc hr
  constructor
  · apply Threads.inv_update mutex f v₀ n s i (Pc.entered l) _ _ hp hinv.1
    · exact Threads.others_of_holding mutex f v₀ n s i _ hinv hp rfl
    · simp only [Pc.holding, iff_true]
      exact hinv.2.2.1.2 ⟨i, _, hp, rfl⟩
    · have : List.countP Pc.finished (s.pcs.set i (Pc.loaded l (s.store mutex).value))
          = List.countP Pc.finished s.pcs := by simpa using hc
      rw [this]
      exact hinv.2.2.2.1
    · intro l₁ tmp hq
      simp only [Pc.loaded.injEq] at hq
      exact hq.2.symm
    · intro l₁ hl
      simp only [Pc.guard?, Option.some.injEq] at hl
      rw [← hl]
      exact hinv.2.2.2.2.2 i _ l hp rfl
  · simp only [Threads.remaining]
    omega

theorem Threads.step_loaded {T : Type} (mutex : Addr) (f : T → T) (v₀ : T) (n : Nat)
    (s : Threads T) (i : Nat) (l : lock_guard) (tmp : T)
    (hinv : Threads.inv mutex f v₀ n s) (hp : s.pcs[i]? = some (Pc.loaded l tmp)) :
    Threads.inv mutex f v₀ n (thread_step mutex f s i) ∧
    (thread_step mutex f s i).remaining + 1 = s.remaining := by
  have hstep : thread_step mutex f s i =
      { store := s.store.set mutex { s.store mutex with value := f tmp },
        pcs := s.pcs.set i (Pc.stored l) } := by
    simp only [thread_step, hp, ValueRef.write]
  rw [hstep]
  have hc := countP_set_add Pc.finished s.pcs i (Pc.loaded l tmp) (Pc.stored l) hp
  have hr := sum_remaining_set s.pcs i (Pc.loaded l tmp) (Pc.stored l) hp
  simp only [Pc.finished, Pc.remaining] at hc hr
  constructor
  · apply Threads.inv_update mutex f v₀ n s i (Pc.loaded l tmp) _ _ hp hinv.1
    · exact Threads.others_of_holding mutex f v₀ n s i _ hinv hp rfl
    · simp only [Store.set_same, Pc.holding, iff_true]
      exact hinv.2.2.1.2 ⟨i, _, hp, rfl⟩
    · have : List.countP Pc.finished (s.pcs.set i (Pc.stored l))
          = List.countP Pc.finished s.pcs + 1 := by simpa using hc
      rw [this, Function.iterate_succ_apply', ← hinv.2.2.2.1,
        hinv.2.2.2.2.1 i l tmp hp]
      simp
    · intro l₁ tmp₁ hq
      exact Pc.noConfusion hq
    · intro l₁ hl
      simp only [Pc.guard?, Option.some.injEq] at hl
      rw [← hl]
      exact hinv.2.2.2.2.2 i _ l hp rfl
  · simp only [Threads.remaining]
    omega

theorem Threads.step_stored {T : Type} (mutex : Addr) (f : T → T) (v₀ : T) (n : Nat)
    (s : Threads T) (i : Nat) (l : lock_guard)
    (hinv : Threads.inv mutex f v₀ n s) (hp : s.pcs[i]? = some (Pc.stored l)) :
    Threads.inv mutex f v₀ n (thread_step mutex f s i) ∧
    (thread_step mutex f s i).remaining + 1 = s.remaining := by
  have hl : l.self = mutex := hinv.2.2.2.2.2 i _ l hp rfl
  have hstep : thread_step mutex f s i =
      { store := s.store.set mutex
          { s.store mutex with mutex := (s.store mutex).mutex.unlock },
        pcs := s.pcs.set i Pc.done } := by
    simp only [thread_step, hp, lock_guard.dtor, hl]
  rw [hstep]
  have hc := countP_set_add Pc.finished s.pcs i (Pc.stored l) Pc.done hp
  have hr := sum_remaining_set s.pcs i (Pc.stored l) (Pc.done) hp
  simp only [Pc.finished, Pc.remaining] at hc hr
  constructor
  · apply Threads.inv_update mutex f v₀ n s i (Pc.stored l) _ _ hp hinv.1
    · exact Threads.others_of_holding mutex f v₀ n s i _ hinv hp rfl
    · simp [Pc.holding, StdMutex.unlock]
    · have : List.countP Pc.finished (s.pcs.set i Pc.done)
          = List.countP Pc.finished s.pcs := by simpa using hc
      rw [this]
      simpa using hinv.2.2.2.1
    · intro l₁ tmp₁ hq
      exact Pc.noConfusion hq
    · intro l₁ hl₁
      simp [Pc.guard?] at hl₁
  · simp only [Threads.remaining]
    omega

theorem Threads.thread_step_inv {T : Type} (mutex : Addr) (f : T → T) (v₀ : T) (n : Nat)
    (s : Threads T) (i : Nat) (hinv : Threads.inv mutex f v₀ n s) :
    Threads.inv mutex f v₀ n (thread_step mutex f s i) := by
  cases hp : s.pcs[i]? with
  | none =>
    have : thread_step mutex f s i = s := by simp only [thread_step, hp]
    rw [this]
    exact hinv
  | some p =>
    cases p with
    | start =>
      by_cases hu : (s.store mutex).mutex.state = LockState.Unlocked
      · exact (Threads.step_start mutex f v₀ n s i hinv hp hu).1
      · rw [Threads.step_start_locked mutex f s i hp (LockState.eq_locked_of_ne hu)]
        exact hinv
    | entered l => exact (Threads.step_entered mutex f v₀ n s i l hinv hp).1
    | loaded l tmp => exact (Threads.step_loaded mutex f v₀ n s i l tmp hinv hp).1
    | stored l => exact (Threads.step_stored mutex f v₀ n s i l hinv hp).1
    | done =>
      have : thread_step mutex f s i = s := by simp only [thread_step, hp]
      rw [this]
      exact hinv

theorem Threads.exec_inv {T : Type} (mutex : Addr) (f : T → T) (v₀ : T) (n : Nat)
    (sched : List Nat) (s : Threads T) (hinv : Threads.inv mutex f v₀ n s) :
    Threads.inv mutex f v₀ n (s.exec mutex f sched) := by
  induction sched generalizing s with
  | nil => exact hinv
  | cons i rest ih =>
    simp only [Threads.exec, List.foldl_cons]
    exact ih _ (Threads.thread_step_inv mutex f v₀ n s i hinv)

theorem Threads.progress {T : Type} (mutex : Addr) (f : T → T) (v₀ : T) (n : Nat)
    (s : Threads T) (hinv : Threads.inv mutex f v₀ n s) (hpos : 0 < s.remaining) :
    ∃ i, (thread_step mutex f s i).remaining + 1 = s.remaining := by
  by_cases hex : ∃ (i : Nat) (p : Pc T), s.pcs[i]? = some p ∧ p.holding = true
  · obtain ⟨i, p, hp, hh⟩ := hex
    refine ⟨i, ?_⟩
    cases p with
    | start => exact Bool.noConfusion hh
    | entered l => exact (Threads.step_entered mutex f v₀ n s i l hinv hp).2
    | loaded l tmp => exact (Threads.step_loaded mutex f v₀ n s i l tmp hinv hp).2
    | stored l => exact (Threads.step_stored mutex f v₀ n s i l hinv hp).2
    | done => exact Bool.noConfusion hh
  · have hu : (s.store mutex).mutex.state = LockState.Unlocked := by
      by_contra hne
      exact hex (hinv.2.2.1.1 (LockState.eq_locked_of_ne hne))
    obtain ⟨i, p, hp, hr⟩ := exists_remaining_pos s.pcs hpos
    refine ⟨i, ?_⟩
    cases p with
    | start => exact (Threads.step_start mutex f v₀ n s i hinv hp hu).2
    | entered l => exact absurd ⟨i, _, hp, rfl⟩ hex
    | loaded l tmp => exact absurd ⟨i, _, hp, rfl⟩ hex
    | stored l => exact absurd ⟨i, _, hp, rfl⟩ hex
    | done => simp [Pc.remaining] at hr

theorem Threads.can_finish {T : Type} (mutex : Addr) (f : T → T) (v₀ : T) (n : Nat)
    (k : Nat) (s : Threads T) (hinv : Threads.inv mutex f v₀ n s)
    (hk : s.remaining = k) :
    ∃ more : List Nat, (s.exec mutex f more).joined = true := by
  induction k generalizing s with
  | zero => exact ⟨[], all_done_of_remaining_zero s.pcs hk⟩
  | succ m ih =>
    obtain ⟨i, hi⟩ := Threads.progress mutex f v₀ n s hinv (by omega)
    obtain ⟨more, hmore⟩ := ih (thread_step mutex f s i)
      (Threads.thread_step_inv mutex f v₀ n s i hinv) (by omega)
    exact ⟨i :: more, by simpa [Threads.exec] using hmore⟩

theorem Threads.spawn_inv {T : Type} (mutex : Addr) (f : T → T) (n : Nat) (σ : Store T)
    (hu : (σ mutex).mutex.state = LockState.Unlocked) :
    Threads.inv mutex f (σ mutex).value n (Threads.spawn n σ) := by
  have hget : ∀ (i : Nat) (p : Pc T),
      (List.replicate n (Pc.start : Pc T))[i]? = some p → p = Pc.start := by
    intro i p hp
    rw [List.getElem?_replicate] at hp
    split at hp
    · exact (Option.some.inj hp).symm
    · exact Option.noConfusion hp
  refine ⟨by simp [Threads.spawn], ?_, ?_, ?_, ?_, ?_⟩
  · intro i j p q hp _ hh _
    rw [hget i p hp] at hh
    exact Bool.noConfusion hh
  · constructor
    · intro hl
      simp only [Threads.spawn] at hl
      rw [hu] at hl
      exact LockState.noConfusion hl
    · rintro ⟨i, p, hp, hh⟩
      rw [hget i p hp] at hh
      exact Bool.noConfusion hh
  · simp [Threads.spawn, List.countP_replicate, Pc.finished]
  · intro i l tmp hp
    exact Pc.noConfusion (hget i _ hp)
  · intro i p l hp hl
    rw [hget i p hp] at hl
    simp [Pc.guard?] at hl

theorem Threads.joined_value {T : Type} (mutex : Addr) (f : T → T) (v₀ : T) (n : Nat)
    (s : Threads T) (hinv : Threads.inv mutex f v₀ n s) (hj : s.joined = true) :
    (s.store mutex).value = f^[n] v₀ ∧
    (s.store mutex).mutex.state = LockState.Unlocked := by
  have hall : ∀ p ∈ s.pcs, Pc.is_done p = true := List.all_eq_true.1 hj
  have hfin : List.countP Pc.finished s.pcs = s.pcs.length := by
    rw [List.countP_eq_length]
    intro p hp
    have := hall p hp
    cases p <;> simp [Pc.is_done] at this
    rfl
  constructor
  · rw [hinv.2.2.2.1, hfin, hinv.1]
  · by_contra hne
    obtain ⟨i, p, hp, hh⟩ := hinv.2.2.1.1 (LockState.eq_locked_of_ne hne)
    have := hall p (List.mem_iff_getElem?.2 ⟨i, hp⟩)
    cases p <;> simp [Pc.is_done] at this
    exact Bool.noConfusion hh

theorem thread_alone_eq_with_lock {T : Type} (mutex : Addr) (f : T → T) (σ : Store T)
    (hu : (σ mutex).mutex.state = LockState.Unlocked) :
    run_across_threads 1 mutex f [0, 0, 0, 0] σ = with_lock_body mutex f σ := by
  rw [with_lock_body_of_unlocked mutex f σ hu]
  simp [run_across_threads, Threads.spawn, Threads.exec, Threads.joined, thread_step,
    lock_guard.lg_ctor_of_unlocked mutex σ hu, lock_guard.dtor, ValueRef.read,
    ValueRef.write, StdMutex.unlock, after_cycle, Pc.is_done]

theorem run_across_threads_value {T : Type} (n : Nat) (mutex : Addr) (f : T → T)
    (sched : List Nat) (σ σ₁ : Store T)
    (hu : (σ mutex).mutex.state = LockState.Unlocked)
    (h : run_across_threads n mutex f sched σ = some σ₁) :
    (σ₁ mutex).value = f^[n] (σ mutex).value ∧
    (σ₁ mutex).mutex.state = LockState.Unlocked := by
  have hinv := Threads.exec_inv mutex f (σ mutex).value n sched _
    (Threads.spawn_inv mutex f n σ hu)
  simp only [run_across_threads] at h
  split at h
  · rename_i hj
    rw [← Option.some.inj h]
    exact Threads.joined_value mutex f (σ mutex).value n _ hinv hj
  · exact Option.noConfusion h

theorem run_across_threads_completes {T : Type} (n : Nat) (mutex : Addr) (f : T → T)
    (sched : List Nat) (σ : Store T)
    (hu : (σ mutex).mutex.state = LockState.Unlocked) :
    ∃ more : List Nat,
      (run_across_threads n mutex f (sched ++ more) σ).isSome = true := by
  have hinv := Threads.exec_inv mutex f (σ mutex).value n sched _
    (Threads.spawn_inv mutex f n σ hu)
  obtain ⟨more, hmore⟩ := Threads.can_finish mutex f (σ mutex).value n _ _ hinv rfl
  refine ⟨more, ?_⟩
  have hj : ((Threads.spawn n σ).exec mutex f (sched ++ more)).joined = true := by
    simpa [Threads.exec, List.foldl_append] using hmore
  simp [run_across_threads, hj]

theorem test_with_lock_never_fails (n : Nat) (a : Addr) (sched : List Nat)
    (σ : Store Int) : test_with_lock n a sched σ ≠ some false := by
  have hu : ((σ.set a (construct (0 : Int))) a).mutex.state = LockState.Unlocked := by
    simp [construct, StdMutex.init]
  cases h : run_across_threads n a (fun val => val + 1) sched (σ.set a (construct 0)) with
  | none => simp [test_with_lock, h]
  | some σ₁ =>
    obtain ⟨hv, hs⟩ := run_across_threads_value n a _ sched _ σ₁ hu h
    have hn : (σ₁ a).value = (n : Int) := by
      rw [hv, iterate_succ_int]
      simp [construct]
    simp [test_with_lock, h, lock_get_of_unlocked a σ₁ hs, hn]

theorem test_with_lock_SET_VALUE (a : Addr) (sched : List Nat) (σ : Store Int) :
    test_with_lock SET_VALUE a sched σ ≠ some false :=
  test_with_lock_never_fails SET_VALUE a sched σ

/-- C2. Mutual exclusion under contention: when `N` threads each increment an integer
that starts at 0 once through `with_lock`, then under every schedule of their steps
that lets all of them finish the stored value is exactly `N` (so the assertion of
`test_with_lock` holds), and every schedule can be continued to one that lets all of
them finish. -/
theorem no_lost_updates (N : Nat) (a : Addr) (σ : Store Int) (sched : List Nat) :
    (∀ σ₁, run_across_threads N a (fun val => val + 1) sched (σ.set a (construct 0))
        = some σ₁ →
      (σ₁ a).value = (N : Int) ∧ test_with_lock N a sched σ = some true) ∧
    ∃ more : List Nat,
      (run_across_threads N a (fun val => val + 1) (sched ++ more)
        (σ.set a (construct 0))).isSome = true := by
  have hu : ((σ.set a (construct (0 : Int))) a).mutex.state = LockState.Unlocked := by
    simp [construct, StdMutex.init]
  refine ⟨?_, run_across_threads_completes N a _ sched _ hu⟩
  intro σ₁ h
  obtain ⟨hv, hs⟩ := run_across_threads_value N a _ sched _ σ₁ hu h
  have hN : (σ₁ a).value = (N : Int) := by
    rw [hv, iterate_succ_int]
    simp [construct]
  refine ⟨hN, ?_⟩
  simp [test_with_lock, h, lock_get_of_unlocked a σ₁ hs, hN]

/-- C2, at a concrete input: two threads under an interleaved schedule in which the
second thread twice finds the lock taken. -/
theorem no_lost_updates_witness :
    (run_across_threads 2 0 (fun val => val + 1) [0, 1, 0, 0, 1, 0, 1, 1, 1, 1]
        ((Store.fresh (7 : Int)).set 0 (construct 0))).isSome = true ∧
    (run_across_threads 2 0 (fun val => val + 1) [0, 1, 0, 0, 1, 0, 1, 1, 1, 1]
        ((Store.fresh (7 : Int)).set 0 (construct 0))).map (fun σ₁ => (σ₁ 0).value)
      = some 2 ∧
    test_with_lock 2 0 [0, 1, 0, 0, 1, 0, 1, 1, 1, 1] (Store.fresh (7 : Int)) = some true := by
  have hs : (run_across_threads 2 0 (fun val => val + 1) [0, 1, 0, 0, 1, 0, 1, 1, 1, 1]
      ((Store.fresh (7 : Int)).set 0 (construct 0))).isSome = true := by decide
  obtain ⟨σ₁, h⟩ := Option.isSome_iff_exists.1 hs
  obtain ⟨hv, ht⟩ :=
    (no_lost_updates 2 0 (Store.fresh (7 : Int)) [0, 1, 0, 0, 1, 0, 1, 1, 1, 1]).1 σ₁ h
  refine ⟨hs, ?_, ht⟩
  rw [h]
  simpa using hv
